import Mathlib

/-!
Shallow embedding of `app/vmalert/recording.go` (VictoriaMetrics vmalert
recording rules): the `RecordingRule` data model, the `Exec` evaluation cycle
with its duplicate-series detection, the canonical label-key builder
`stringifyLabels`, the hot-reload operation `UpdateWith` and the status
snapshot `RuleAPI`.

Modelling conventions:
- Go strings are Lean `String`; Go's byte-wise string comparison is `strLt`
  below (UTF-8 byte order and code-point order agree for valid UTF-8).
- `time.Time` is `GoTime` (seconds and nanoseconds since the Unix epoch);
  `time.Unix(sec, 0)` is `timeUnix sec 0`.
- `float64` sample values are only ever copied, never computed with, so they
  are carried as `Rat`.
- A Go `map[string]string` is an association list with unique keys, mutated by
  `mapSet` (Go map iteration order is unspecified; every place the code
  consumes such a map it first derives a deterministic order).
- The querier bound to a rule is external; `Exec` takes the outcome of
  `rr.q.Query(ctx, rr.Expr)` as an explicit `Except` argument, and the wall
  clock `time.Now()` as an explicit `now` argument. The mutex `mu` guards
  in-place mutation; the model threads the rule record explicitly instead.
- `sort.Slice(labels, less)` sorts in place; it is modelled by
  `List.insertionSort` with the non-strict reflection of the same `less`
  (Go's sort leaves the order of `Name`-equal labels unspecified; insertion
  sort is one admissible outcome), and functions that mutate their argument
  in Go return the mutated value here.
-/

/-- Byte-wise (code-point-wise) strict comparison of character lists, the
order Go's `<` on strings implements. -/
def charsLt : List Char → List Char → Bool
  | _, [] => false
  | [], _ :: _ => true
  | a :: as, b :: bs =>
    if a.toNat < b.toNat then true
    else if b.toNat < a.toNat then false
    else charsLt as bs

/-- Go's `a < b` on strings. -/
def strLt (a b : String) : Bool := charsLt a.data b.data

/-- Label is prompbmarshal.Label: an immutable (name, value) string pair. -/
structure Label where
  name : String
  value : String
deriving DecidableEq, Repr

/-- GoTime models `time.Time`: seconds and nanoseconds since the Unix epoch. -/
structure GoTime where
  sec : Int
  nsec : Int
deriving DecidableEq, Repr

/-- Models `time.Unix(sec, nsec)`; the code only ever calls it with `nsec = 0`,
where no normalisation happens. -/
def timeUnix (sec nsec : Int) : GoTime := ⟨sec, nsec⟩

/-- Metric is datasource.Metric: a label set, an int64 sample timestamp in
seconds, and a float64 value. -/
structure Metric where
  labels : List Label
  timestamp : Int
  value : Rat
deriving DecidableEq, Repr

/-- TimeSeries is prompbmarshal.TimeSeries as this code builds it: a label set
plus one (value, timestamp) sample. -/
structure TimeSeries where
  labels : List Label
  value : Rat
  timestamp : GoTime
deriving DecidableEq, Repr

/-- The sort order used by `stringifyLabels`: the non-strict reflection of
`labels[i].Name < labels[j].Name`. -/
def labelLE (a b : Label) : Prop := strLt b.name a.name = false

instance : DecidableRel labelLE := fun a b =>
  inferInstanceAs (Decidable (strLt b.name a.name = false))

/-- The in-place `sort.Slice` call of `stringifyLabels`: labels are sorted by
name when more than one is present. -/
def sortLabels (labels : List Label) : List Label :=
  if labels.length > 1 then List.insertionSort labelLE labels else labels

/-- The string-building loop of `stringifyLabels`: `name=value` pairs joined
by single commas, no trailing separator. -/
def labelsToString : List Label → String
  | [] => ""
  | [l] => l.name ++ "=" ++ l.value
  | l :: l2 :: rest => l.name ++ "=" ++ l.value ++ "," ++ labelsToString (l2 :: rest)

/-- Exec's `stringifyLabels(ts)`: sorts `ts.Labels` by name (in place in Go —
the returned `TimeSeries` is the argument after that mutation) and renders the
sorted sequence as the canonical key string. -/
def stringifyLabels (ts : TimeSeries) : TimeSeries × String :=
  let labels := sortLabels ts.labels
  ({ ts with labels := labels }, labelsToString labels)

/-- The canonical key of a label set, as a function of the label list alone:
exactly the string component `stringifyLabels` computes. -/
def canonicalKey (labels : List Label) : String :=
  labelsToString (sortLabels labels)

/-- Go `map[string]string` assignment `m[k] = v` on an association-list
representation: any existing entry for `k` is dropped and `(k, v)` stored. -/
def mapSet (m : List (String × String)) (k v : String) : List (String × String) :=
  (m.filter (fun p => p.1 ≠ k)) ++ [(k, v)]

/-- Go map lookup `m[k]` (as `Option`). -/
def mapGet (m : List (String × String)) (k : String) : Option String :=
  (m.find? (fun p => p.1 = k)).map (fun p => p.2)

/-- The errors `Exec` stores into `lastExecError`: the raw querier error (an
opaque message), or the distinguished duplicate-series sentinel.
`errDuplicate` itself is declared outside `recording.go`; modelled from the
spec as a distinguished error value. -/
inductive RuleError where
  | queryError (msg : String)
  | errDuplicate
deriving DecidableEq, Repr

/-- RecordingRule: identity (`Type`, `RuleID`, `Name`, `GroupID`), mutable
config (`Expr`, static `Labels`), and the lock-guarded status pair
(`lastExecTime`, `lastExecError`). `datasource.Type` is carried as the string
its `String()` method renders. The bound querier `q` and the gauge handle are
external and not part of the record (see the module conventions). -/
structure RecordingRule where
  typ : String
  ruleID : Nat
  name : String
  expr : String
  labels : List (String × String)
  groupID : Nat
  lastExecTime : GoTime
  lastExecError : Option RuleError
deriving DecidableEq, Repr

/-- Modelled from the spec: the message of the distinguished duplicate-series
error (its `Error()` string; the variable is declared outside `recording.go`). -/
def RuleError.message : RuleError → String
  | .queryError msg => msg
  | .errDuplicate => "duplicate series"

/-- The errors `Exec` returns: the wrapped query failure
(`failed to execute query %q: %w`) or the wrapped duplicate report
(`original metric %v; resulting labels %q: %w` around `errDuplicate`). -/
inductive ExecError where
  | queryFailed (expr : String) (msg : String)
  | duplicateFound (m : Metric) (key : String)
deriving DecidableEq, Repr

/-- Modelled from the spec: `newTimeSeries(value, labels, timestamp)` is
declared outside `recording.go`; per the spec's data model it builds the
output TimeSeries from the final label map, one value and one timestamp. The
map's entries become the label set; a Go map being unordered, they are laid
out in a deterministic name-sorted order. -/
def newTimeSeries (value : Rat) (labels : List (String × String)) (timestamp : GoTime) :
    TimeSeries :=
  { labels := List.insertionSort labelLE (labels.map (fun p => Label.mk p.1 p.2)),
    value := value,
    timestamp := timestamp }

/-- `RecordingRule.toTimeSeries`: copy the metric's labels into a fresh map,
force-set `__name__` to the rule's name, then overlay the configured static
labels (overriding existing ones), and build the output series. -/
def toTimeSeries (rr : RecordingRule) (m : Metric) (timestamp : GoTime) : TimeSeries :=
  let labels0 := m.labels.foldl (fun acc l => mapSet acc l.name l.value) []
  let labels1 := mapSet labels0 "__name__" rr.name
  let labels2 := rr.labels.foldl (fun acc p => mapSet acc p.1 p.2) labels1
  newTimeSeries m.value labels2 timestamp

/-- The per-metric loop of `Exec`: build each metric's series, compute its
canonical key, fail on the first key already seen, otherwise accumulate. The
appended series is the one `stringifyLabels` has sorted (Go mutates the label
slice in place before the append). -/
def execLoop (rr : RecordingRule) :
    List Metric → List String → List TimeSeries → Except (Metric × String) (List TimeSeries)
  | [], _, tss => .ok tss
  | r :: rest, duplicates, tss =>
    let p := stringifyLabels (toTimeSeries rr r (timeUnix r.timestamp 0))
    if p.2 ∈ duplicates then .error (r, p.2)
    else execLoop rr rest (p.2 :: duplicates) (tss ++ [p.1])

/-- The tail of `Exec` after a successful query, starting from the rule record
`rr1` that already carries the step-3 status write (`lastExecTime = now`,
`lastExecError = nil`): run the duplicate-detection loop; a collision
overwrites the status with `errDuplicate` and discards the whole batch. -/
def execOnOk (rr1 : RecordingRule) (qMetrics : List Metric) :
    RecordingRule × List TimeSeries × Option ExecError :=
  match execLoop rr1 qMetrics [] [] with
  | .error dup =>
    ({ rr1 with lastExecError := some .errDuplicate }, [],
      some (.duplicateFound dup.1 dup.2))
  | .ok tss => (rr1, tss, none)

/-- `RecordingRule.Exec`: returns the updated rule record (Go mutates the
receiver under `mu`) together with the produced series and the returned error.
`series` is the `series bool` argument, `now` the value of `time.Now()`, and
`qres` the outcome of `rr.q.Query(ctx, rr.Expr)`. -/
def Exec (rr : RecordingRule) (series : Bool) (now : GoTime)
    (qres : Except String (List Metric)) :
    RecordingRule × List TimeSeries × Option ExecError :=
  if !series then (rr, [], none)
  else
    match qres with
    | .error e =>
      ({ rr with lastExecTime := now, lastExecError := some (.queryError e) }, [],
        some (.queryFailed rr.expr e))
    | .ok qMetrics =>
      execOnOk { rr with lastExecTime := now, lastExecError := none } qMetrics

/-- The polymorphic `Rule` interface as `UpdateWith` discriminates it: the
receiver's own variant, or some other concrete variant (the alerting rule,
external to this file), carried opaquely. -/
inductive Rule where
  | recording (rr : RecordingRule)
  | otherVariant (tag : String)

/-- `RecordingRule.UpdateWith`: a non-`RecordingRule` argument is a contract
violation and the receiver is returned unchanged; otherwise only `Expr` and
`Labels` are copied from the argument. -/
def UpdateWith (rr : RecordingRule) (r : Rule) : RecordingRule × Option String :=
  match r with
  | .recording nr => ({ rr with expr := nr.expr, labels := nr.labels }, none)
  | .otherVariant _ => (rr, some "BUG: attempt to update recroding rule with wrong type")

/-- APIRecordingRule: the serialisable status snapshot. -/
structure APIRecordingRule where
  id : String
  groupID : String
  name : String
  typ : String
  expression : String
  lastError : String
  lastExec : GoTime
  labels : List (String × String)
deriving DecidableEq, Repr

/-- `RecordingRule.RuleAPI`: numeric identifiers rendered as strings, the last
error's message (empty when healthy), and the current config and status. -/
def RuleAPI (rr : RecordingRule) : APIRecordingRule :=
  { id := toString rr.ruleID,
    groupID := toString rr.groupID,
    name := rr.name,
    typ := rr.typ,
    expression := rr.expr,
    lastError := match rr.lastExecError with
      | none => ""
      | some e => e.message,
    lastExec := rr.lastExecTime,
    labels := rr.labels }

/-- The series `Exec` appends for one metric: the metric's output series after
`stringifyLabels` has name-sorted its labels in place. -/
def tsOf (rr : RecordingRule) (r : Metric) : TimeSeries :=
  (stringifyLabels (toTimeSeries rr r (timeUnix r.timestamp 0))).1

/-- The canonical key `Exec` registers for one metric. -/
def keyOf (rr : RecordingRule) (r : Metric) : String :=
  (stringifyLabels (toTimeSeries rr r (timeUnix r.timestamp 0))).2

/-- A label whose name is free of the pair separator and whose value is free
of the list separator; on such labels the canonical key is unambiguous. -/
def sepFree (lab : Label) : Prop :=
  '=' ∉ lab.name.data ∧ ',' ∉ lab.value.data

instance (lab : Label) : Decidable (sepFree lab) :=
  inferInstanceAs (Decidable (_ ∧ _))

/-- Strict name order on labels, used to identify equal sorted lists. -/
def labelLT (a b : Label) : Prop := strLt a.name b.name = true

theorem charsLt_asymm : ∀ as bs, charsLt as bs = true → charsLt bs as = true → False := by
  intro as
  induction as with
  | nil =>
    intro bs h1 h2
    cases bs with
    | nil => simp [charsLt] at h1
    | cons b bs => simp [charsLt] at h2
  | cons a as ih =>
    intro bs h1 h2
    cases bs with
    | nil => simp [charsLt] at h1
    | cons b bs =>
      simp only [charsLt] at h1 h2
      by_cases hab : a.toNat < b.toNat
      · have hba : ¬ b.toNat < a.toNat := by omega
        simp [hab, hba] at h2
      · by_cases hba : b.toNat < a.toNat
        · simp [hab, hba] at h1
        · simp [hab, hba] at h1 h2
          exact ih bs h1 h2

theorem charsLt_negtrans :
    ∀ as bs cs, charsLt as cs = true → charsLt as bs = true ∨ charsLt bs cs = true := by
  intro as
  induction as with
  | nil =>
    intro bs cs h
    cases cs with
    | nil => simp [charsLt] at h
    | cons c cs =>
      cases bs with
      | nil => right; simp [charsLt]
      | cons b bs => left; simp [charsLt]
  | cons a as ih =>
    intro bs cs h
    cases cs with
    | nil => simp [charsLt] at h
    | cons c cs =>
      cases bs with
      | nil => right; simp [charsLt]
      | cons b bs =>
        simp only [charsLt] at h ⊢
        by_cases hac : a.toNat < c.toNat
        · by_cases hab : a.toNat < b.toNat
          · left; simp [hab]
          · right
            have hbc : b.toNat < c.toNat := by omega
            simp [hbc]
        · by_cases hca : c.toNat < a.toNat
          · simp [hac, hca] at h
          · have hrec : charsLt as cs = true := by simpa [hac, hca] using h
            by_cases hab : a.toNat < b.toNat
            · left; simp [hab]
            · by_cases hba : b.toNat < a.toNat
              · right
                have hbc : b.toNat < c.toNat := by omega
                simp [hbc]
              · rcases ih bs cs hrec with h1 | h1
                · left; simp [hab, hba, h1]
                · right
                  have hbc : ¬ b.toNat < c.toNat := by omega
                  have hcb : ¬ c.toNat < b.toNat := by omega
                  simp [hbc, hcb, h1]

theorem charsLt_trichotomy :
    ∀ as bs, as ≠ bs → charsLt as bs = true ∨ charsLt bs as = true := by
  intro as
  induction as with
  | nil =>
    intro bs h
    cases bs with
    | nil => exact absurd rfl h
    | cons b bs => left; simp [charsLt]
  | cons a as ih =>
    intro bs h
    cases bs with
    | nil => right; simp [charsLt]
    | cons b bs =>
      by_cases hab : a.toNat < b.toNat
      · left; simp [charsLt, hab]
      · by_cases hba : b.toNat < a.toNat
        · right; simp [charsLt, hba]
        · have hval : a = b := by
            have hn : a.toNat = b.toNat := by omega
            exact Char.ext (UInt32.ext hn)
          subst hval
          have htl : as ≠ bs := fun hh => h (by rw [hh])
          rcases ih bs htl with h1 | h1
          · left; simp [charsLt, h1]
          · right; simp [charsLt, h1]

instance : IsTotal Label labelLE := by
  refine ⟨fun a b => ?_⟩
  by_cases h : strLt b.name a.name = false
  · exact Or.inl h
  · right
    have hlt : charsLt b.name.data a.name.data = true := by
      simpa [strLt] using h
    unfold labelLE strLt
    by_contra hc
    simp only [Bool.not_eq_false] at hc
    exact charsLt_asymm _ _ hc hlt

instance : IsTrans Label labelLE := by
  refine ⟨fun a b c hab hbc => ?_⟩
  unfold labelLE strLt at hab hbc ⊢
  by_contra hc
  simp only [Bool.not_eq_false] at hc
  rcases charsLt_negtrans c.name.data b.name.data a.name.data hc with h | h
  · simp [h] at hbc
  · simp [h] at hab

instance : IsAntisymm Label labelLT :=
  ⟨fun _ _ hab hba => (charsLt_asymm _ _ hab hba).elim⟩

theorem sortLabels_perm (l : List Label) : List.Perm (sortLabels l) l := by
  unfold sortLabels
  by_cases h : l.length > 1
  · rw [if_pos h]
    exact List.perm_insertionSort labelLE l
  · rw [if_neg h]

theorem sortLabels_sorted (l : List Label) : List.Sorted labelLE (sortLabels l) := by
  unfold sortLabels
  by_cases h : l.length > 1
  · rw [if_pos h]
    exact List.sorted_insertionSort labelLE l
  · rw [if_neg h]
    match l, h with
    | [], _ => exact List.sorted_nil
    | [a], _ => exact List.sorted_singleton a
    | a :: b :: rest, h => exact absurd (by simp) h

theorem sorted_lt_of_le_nodup (l : List Label) (hs : List.Sorted labelLE l)
    (hn : (l.map Label.name).Nodup) : List.Sorted labelLT l := by
  have hpn : l.Pairwise (fun a b => a.name ≠ b.name) := List.pairwise_map.mp hn
  have hand := List.Pairwise.and hs hpn
  refine hand.imp ?_
  rintro a b ⟨hle, hne⟩
  have hd : a.name.data ≠ b.name.data := fun hdd => hne (String.ext hdd)
  rcases charsLt_trichotomy _ _ hd with h | h
  · exact h
  · exact absurd hle (by simp [labelLE, strLt, h])

theorem sorted_unique_perm (l1 l2 : List Label) (hp : List.Perm l1 l2)
    (hn : (l1.map Label.name).Nodup)
    (h1 : List.Sorted labelLE l1) (h2 : List.Sorted labelLE l2) : l1 = l2 := by
  have hn2 : (l2.map Label.name).Nodup := (hp.map Label.name).nodup_iff.mp hn
  exact List.eq_of_perm_of_sorted hp
    (sorted_lt_of_le_nodup _ h1 hn) (sorted_lt_of_le_nodup _ h2 hn2)

theorem canonicalKey_perm_invariant (l1 l2 : List Label) (hp : List.Perm l1 l2)
    (hn : (l1.map Label.name).Nodup) : canonicalKey l1 = canonicalKey l2 := by
  unfold canonicalKey
  congr 1
  refine sorted_unique_perm _ _ ?_ ?_ (sortLabels_sorted l1) (sortLabels_sorted l2)
  · exact (sortLabels_perm l1).trans (hp.trans (sortLabels_perm l2).symm)
  · exact ((sortLabels_perm l1).map Label.name).nodup_iff.mpr hn

/-- Shape of what follows a value in the canonical key: either the end of the
string or a separator and more text. -/
def sepShape (c : Char) (r : List Char) : Prop := r = [] ∨ ∃ s, r = c :: s

theorem eq_split_char (c : Char) :
    ∀ n1 t1 n2 t2 : List Char, n1 ++ c :: t1 = n2 ++ c :: t2 → c ∉ n1 → c ∉ n2 →
      n1 = n2 ∧ t1 = t2 := by
  intro n1
  induction n1 with
  | nil =>
    intro t1 n2 t2 heq h1 h2
    cases n2 with
    | nil => simpa using heq
    | cons b n2 =>
      simp only [List.nil_append, List.cons_append] at heq
      injection heq with hcb _
      subst hcb
      exact absurd (List.mem_cons_self c n2) h2
  | cons a n1 ih =>
    intro t1 n2 t2 heq h1 h2
    cases n2 with
    | nil =>
      simp only [List.nil_append, List.cons_append] at heq
      injection heq with hac _
      subst hac
      exact absurd (List.mem_cons_self a n1) h1
    | cons b n2 =>
      simp only [List.cons_append] at heq
      injection heq with hab hrest
      subst hab
      obtain ⟨he1, he2⟩ := ih t1 n2 t2 hrest
        (fun hm => h1 (List.mem_cons_of_mem a hm))
        (fun hm => h2 (List.mem_cons_of_mem a hm))
      exact ⟨by rw [he1], he2⟩

theorem eq_split_term (c : Char) :
    ∀ v1 r1 v2 r2 : List Char, v1 ++ r1 = v2 ++ r2 → c ∉ v1 → c ∉ v2 →
      sepShape c r1 → sepShape c r2 → v1 = v2 ∧ r1 = r2 := by
  intro v1
  induction v1 with
  | nil =>
    intro r1 v2 r2 heq h1 h2 hs1 hs2
    cases v2 with
    | nil => exact ⟨rfl, by simpa using heq⟩
    | cons b v2 =>
      rcases hs1 with hend | ⟨s, hsy⟩
      · subst hend; simp at heq
      · subst hsy
        simp only [List.nil_append, List.cons_append] at heq
        injection heq with hcb _
        subst hcb
        exact absurd (List.mem_cons_self c v2) h2
  | cons a v1 ih =>
    intro r1 v2 r2 heq h1 h2 hs1 hs2
    cases v2 with
    | nil =>
      rcases hs2 with hend | ⟨s, hsy⟩
      · subst hend; simp at heq
      · subst hsy
        simp only [List.nil_append, List.cons_append] at heq
        injection heq with hac _
        subst hac
        exact absurd (List.mem_cons_self a v1) h1
    | cons b v2 =>
      simp only [List.cons_append] at heq
      injection heq with hab hrest
      subst hab
      obtain ⟨he1, he2⟩ := ih r1 v2 r2 hrest
        (fun hm => h1 (List.mem_cons_of_mem a hm))
        (fun hm => h2 (List.mem_cons_of_mem a hm))
        hs1 hs2
      exact ⟨by rw [he1], he2⟩

/-- What follows the first pair in the canonical key of a non-empty list:
nothing, or a comma and the rendering of the remaining labels. -/
def labelsTailData : List Label → List Char
  | [] => []
  | b :: l => ',' :: (labelsToString (b :: l)).data

theorem labelsToString_cons_data (a : Label) (l : List Label) :
    (labelsToString (a :: l)).data =
      a.name.data ++ '=' :: (a.value.data ++ labelsTailData l) := by
  cases l with
  | nil =>
    show (a.name ++ "=" ++ a.value).data = _
    simp [String.data_append, labelsTailData, show ("=" : String).data = ['='] from rfl]
  | cons b rest =>
    show (a.name ++ "=" ++ a.value ++ "," ++ labelsToString (b :: rest)).data = _
    simp [String.data_append, labelsTailData,
      show ("=" : String).data = ['='] from rfl,
      show ("," : String).data = [','] from rfl]

theorem labelsTailData_shape (l : List Label) : sepShape ',' (labelsTailData l) := by
  cases l with
  | nil => exact Or.inl rfl
  | cons b rest => exact Or.inr ⟨_, rfl⟩

theorem labelsToString_inj : ∀ l1 l2 : List Label,
    (∀ lab ∈ l1, sepFree lab) → (∀ lab ∈ l2, sepFree lab) →
    (labelsToString l1).data = (labelsToString l2).data → l1 = l2 := by
  intro l1
  induction l1 with
  | nil =>
    intro l2 h1 h2 heq
    cases l2 with
    | nil => rfl
    | cons b l2 =>
      rw [labelsToString_cons_data] at heq
      simp [show (labelsToString []).data = [] from rfl] at heq
  | cons a l1 ih =>
    intro l2 h1 h2 heq
    cases l2 with
    | nil =>
      rw [labelsToString_cons_data] at heq
      simp [show (labelsToString []).data = [] from rfl] at heq
    | cons b l2 =>
      rw [labelsToString_cons_data, labelsToString_cons_data] at heq
      obtain ⟨hf1, hf2⟩ := h1 a (List.mem_cons_self a l1)
      obtain ⟨hg1, hg2⟩ := h2 b (List.mem_cons_self b l2)
      obtain ⟨hname, hrest⟩ := eq_split_char '=' _ _ _ _ heq hf1 hg1
      obtain ⟨hvalue, htail⟩ := eq_split_term ',' _ _ _ _ hrest hf2 hg2
        (labelsTailData_shape l1) (labelsTailData_shape l2)
      have hnm : a.name = b.name := String.ext hname
      have hvl : a.value = b.value := String.ext hvalue
      have hab : a = b := by cases a; cases b; simp_all
      have htl : l1 = l2 := by
        cases l1 with
        | nil =>
          cases l2 with
          | nil => rfl
          | cons d l2 => simp [labelsTailData] at htail
        | cons c l1 =>
          cases l2 with
          | nil => simp [labelsTailData] at htail
          | cons d l2 =>
            simp only [labelsTailData] at htail
            injection htail with _ hdata
            exact ih (d :: l2)
              (fun lab hm => h1 lab (List.mem_cons_of_mem a hm))
              (fun lab hm => h2 lab (List.mem_cons_of_mem b hm))
              hdata
      rw [hab, htl]

theorem canonicalKey_inj (l1 l2 : List Label)
    (h1 : ∀ lab ∈ l1, sepFree lab) (h2 : ∀ lab ∈ l2, sepFree lab)
    (hk : canonicalKey l1 = canonicalKey l2) : List.Perm l1 l2 := by
  have hs1 : ∀ lab ∈ sortLabels l1, sepFree lab :=
    fun lab hm => h1 lab ((sortLabels_perm l1).subset hm)
  have hs2 : ∀ lab ∈ sortLabels l2, sepFree lab :=
    fun lab hm => h2 lab ((sortLabels_perm l2).subset hm)
  have heq : sortLabels l1 = sortLabels l2 :=
    labelsToString_inj _ _ hs1 hs2 (congrArg String.data hk)
  exact (sortLabels_perm l1).symm.trans (heq ▸ sortLabels_perm l2)

theorem find?_filter_ne (m : List (String × String)) (k k' : String) (h : k' ≠ k) :
    (m.filter (fun p => p.1 ≠ k)).find? (fun p => p.1 = k') =
      m.find? (fun p => p.1 = k') := by
  induction m with
  | nil => rfl
  | cons q m ih =>
    rw [List.filter_cons]
    by_cases hqk : q.1 = k
    · have hq' : ¬ q.1 = k' := fun hh => h (hh ▸ hqk)
      rw [if_neg (by simpa using hqk)]
      rw [List.find?_cons_of_neg m (by simpa using hq')]
      exact ih
    · rw [if_pos (by simpa using hqk)]
      by_cases hq' : q.1 = k'
      · rw [List.find?_cons_of_pos _ (by simpa using hq'),
          List.find?_cons_of_pos m (by simpa using hq')]
      · rw [List.find?_cons_of_neg _ (by simpa using hq'),
          List.find?_cons_of_neg m (by simpa using hq')]
        exact ih

theorem find?_filter_self (m : List (String × String)) (k : String) :
    (m.filter (fun p => p.1 ≠ k)).find? (fun p => p.1 = k) = none := by
  apply List.find?_eq_none.mpr
  intro x hx
  have hne := List.of_mem_filter hx
  simpa using hne

theorem mapGet_mapSet (m : List (String × String)) (k v k' : String) :
    mapGet (mapSet m k v) k' = if k' = k then some v else mapGet m k' := by
  by_cases h : k' = k
  · subst h
    rw [if_pos rfl]
    unfold mapGet mapSet
    rw [List.find?_append, find?_filter_self,
      List.find?_cons_of_pos [] (by simp), Option.none_or]
    rfl
  · rw [if_neg h]
    unfold mapGet mapSet
    rw [List.find?_append, find?_filter_ne m k k' h,
      List.find?_cons_of_neg [] (by simp [Ne.symm h]), List.find?_nil, Option.or_none]

theorem mapGet_cons (q : String × String) (m : List (String × String)) (n : String) :
    mapGet (q :: m) n = if q.1 = n then some q.2 else mapGet m n := by
  by_cases h : q.1 = n
  · simp [mapGet, List.find?_cons, h]
  · simp [mapGet, List.find?_cons, h]

theorem mapGet_eq_none_of_not_mem (m : List (String × String)) (n : String)
    (h : n ∉ m.map Prod.fst) : mapGet m n = none := by
  unfold mapGet
  rw [List.find?_eq_none.mpr]
  · rfl
  · intro x hx
    simp only [decide_eq_true_eq]
    exact fun hxn => h (List.mem_map.mpr ⟨x, hx, hxn⟩)

theorem mapGet_foldl (ps : List (String × String)) :
    ∀ (acc : List (String × String)) (n : String), (ps.map Prod.fst).Nodup →
    mapGet (ps.foldl (fun a p => mapSet a p.1 p.2) acc) n =
      match mapGet ps n with
      | some v => some v
      | none => mapGet acc n := by
  induction ps with
  | nil => intro acc n _; simp [mapGet]
  | cons q ps ih =>
    intro acc n hnd
    have hnd' : (ps.map Prod.fst).Nodup := (List.nodup_cons.mp (by simpa using hnd)).2
    have hqout : q.1 ∉ ps.map Prod.fst := (List.nodup_cons.mp (by simpa using hnd)).1
    simp only [List.foldl_cons]
    rw [ih _ n hnd', mapGet_cons]
    by_cases hqn : q.1 = n
    · subst hqn
      rw [mapGet_eq_none_of_not_mem ps q.1 hqout]
      simp [mapGet_mapSet]
    · rw [if_neg hqn]
      cases hf : mapGet ps n with
      | some v => simp
      | none =>
        simp only []
        rw [mapGet_mapSet]
        exact if_neg (fun hh => hqn hh.symm)

theorem mapSet_keys_nodup (m : List (String × String)) (k v : String)
    (h : (m.map Prod.fst).Nodup) : ((mapSet m k v).map Prod.fst).Nodup := by
  unfold mapSet
  rw [List.map_append]
  apply List.Nodup.append
  · exact h.sublist ((List.filter_sublist m).map Prod.fst)
  · exact List.nodup_singleton k
  · intro a ha hb
    simp only [List.map_cons, List.map_nil, List.mem_singleton] at hb
    subst hb
    obtain ⟨p, hp, hpa⟩ := List.mem_map.mp ha
    have hf := List.of_mem_filter hp
    exact absurd hpa (by simpa using hf)

theorem foldl_keys_nodup (ps : List (String × String)) :
    ∀ acc : List (String × String), (acc.map Prod.fst).Nodup →
    ((ps.foldl (fun a p => mapSet a p.1 p.2) acc).map Prod.fst).Nodup := by
  induction ps with
  | nil => intro acc h; simpa using h
  | cons q ps ih =>
    intro acc h
    simp only [List.foldl_cons]
    exact ih _ (mapSet_keys_nodup _ _ _ h)

/-- The output label set as the spec words it, as a lookup function: start
from the Metric's labels, force-set the output-name key to the rule's Name,
then let every static Config Label override any collision. -/
def specOverlayGet (rr : RecordingRule) (m : Metric) (n : String) : Option String :=
  match mapGet rr.labels n with
  | some v => some v
  | none =>
    if n = "__name__" then some rr.name
    else mapGet (m.labels.map (fun l => (l.name, l.value))) n

theorem mapGet_eq_some_iff_mem (m : List (String × String))
    (h : (m.map Prod.fst).Nodup) (k v : String) :
    mapGet m k = some v ↔ (k, v) ∈ m := by
  induction m with
  | nil => simp [mapGet]
  | cons q m ih =>
    have hq : q.1 ∉ m.map Prod.fst := (List.nodup_cons.mp (by simpa using h)).1
    have h' : (m.map Prod.fst).Nodup := (List.nodup_cons.mp (by simpa using h)).2
    rw [mapGet_cons]
    by_cases hqk : q.1 = k
    · subst hqk
      rw [if_pos rfl]
      constructor
      · intro hv
        have hv' : v = q.2 := by simpa using hv.symm
        subst hv'
        exact List.mem_cons_self _ _
      · intro hm
        rcases List.mem_cons.mp hm with hh | hh
        · rw [show q = (q.1, v) from hh.symm]
        · exact absurd (List.mem_map.mpr ⟨_, hh, rfl⟩) hq
    · rw [if_neg hqk]
      rw [ih h']
      constructor
      · exact fun hm => List.mem_cons_of_mem _ hm
      · intro hm
        rcases List.mem_cons.mp hm with hh | hh
        · exact absurd (congrArg Prod.fst hh.symm) hqk
        · exact hh

theorem metric_pairs_keys_nodup (m : Metric) (hM : (m.labels.map Label.name).Nodup) :
    ((m.labels.map (fun l => (l.name, l.value))).map Prod.fst).Nodup := by
  rw [List.map_map]
  simpa [Function.comp] using hM

theorem toTimeSeries_mapGet (rr : RecordingRule) (m : Metric)
    (hS : (rr.labels.map Prod.fst).Nodup) (hM : (m.labels.map Label.name).Nodup)
    (n : String) :
    mapGet (rr.labels.foldl (fun acc p => mapSet acc p.1 p.2)
        (mapSet (m.labels.foldl (fun acc l => mapSet acc l.name l.value) [])
          "__name__" rr.name)) n
      = specOverlayGet rr m n := by
  have hmpK := metric_pairs_keys_nodup m hM
  have hfold0 : m.labels.foldl (fun acc l => mapSet acc l.name l.value) [] =
      (m.labels.map (fun l => (l.name, l.value))).foldl (fun a p => mapSet a p.1 p.2) [] := by
    rw [List.foldl_map]
  rw [mapGet_foldl rr.labels _ n hS]
  unfold specOverlayGet
  cases hc : mapGet rr.labels n with
  | some w => rfl
  | none =>
    simp only []
    rw [mapGet_mapSet]
    by_cases hname : n = "__name__"
    · rw [if_pos hname, if_pos hname]
    · rw [if_neg hname, if_neg hname, hfold0,
        mapGet_foldl _ [] n hmpK]
      cases hmp : mapGet (m.labels.map (fun l => (l.name, l.value))) n with
      | some w => rfl
      | none => simp [mapGet]

theorem toTimeSeries_keys_nodup (rr : RecordingRule) (m : Metric) :
    (((rr.labels.foldl (fun acc p => mapSet acc p.1 p.2)
        (mapSet (m.labels.foldl (fun acc l => mapSet acc l.name l.value) [])
          "__name__" rr.name))).map Prod.fst).Nodup := by
  apply foldl_keys_nodup
  apply mapSet_keys_nodup
  rw [show m.labels.foldl (fun acc l => mapSet acc l.name l.value) [] =
      (m.labels.map (fun l => (l.name, l.value))).foldl (fun a p => mapSet a p.1 p.2) [] by
    rw [List.foldl_map]]
  apply foldl_keys_nodup
  simp

theorem mem_toTimeSeries_iff (rr : RecordingRule) (m : Metric) (t : GoTime)
    (hS : (rr.labels.map Prod.fst).Nodup) (hM : (m.labels.map Label.name).Nodup)
    (n v : String) :
    Label.mk n v ∈ (toTimeSeries rr m t).labels ↔ specOverlayGet rr m n = some v := by
  simp only [toTimeSeries, newTimeSeries]
  rw [(List.perm_insertionSort labelLE _).mem_iff]
  rw [show ∀ L2 : List (String × String),
      (Label.mk n v ∈ L2.map (fun p => Label.mk p.1 p.2)) ↔ (n, v) ∈ L2 from ?_]
  · rw [← mapGet_eq_some_iff_mem _ (toTimeSeries_keys_nodup rr m) n v]
    rw [toTimeSeries_mapGet rr m hS hM n]
  · intro L2
    constructor
    · intro hmem
      obtain ⟨p, hp, heq⟩ := List.mem_map.mp hmem
      obtain ⟨pa, pb⟩ := p
      simp only [Label.mk.injEq] at heq
      obtain ⟨h1, h2⟩ := heq
      subst h1
      subst h2
      exact hp
    · intro hmem
      exact List.mem_map.mpr ⟨(n, v), hmem, rfl⟩

theorem keyOf_update (rr : RecordingRule) (t : GoTime) (e : Option RuleError) :
    keyOf { rr with lastExecTime := t, lastExecError := e } = keyOf rr := rfl

theorem tsOf_update (rr : RecordingRule) (t : GoTime) (e : Option RuleError) :
    tsOf { rr with lastExecTime := t, lastExecError := e } = tsOf rr := rfl

theorem execLoop_ok (rr : RecordingRule) :
    ∀ (ms : List Metric) (dups : List String) (tss : List TimeSeries),
      (ms.map (keyOf rr)).Nodup → (∀ k ∈ ms.map (keyOf rr), k ∉ dups) →
      execLoop rr ms dups tss = .ok (tss ++ ms.map (tsOf rr)) := by
  intro ms
  induction ms with
  | nil => intro dups tss _ _; simp [execLoop]
  | cons r ms ih =>
    intro dups tss hnd hdisj
    have hk : ¬ (stringifyLabels (toTimeSeries rr r (timeUnix r.timestamp 0))).2 ∈ dups :=
      hdisj (keyOf rr r) (by simp)
    rw [List.map_cons] at hnd
    obtain ⟨hhead, htail⟩ := List.nodup_cons.mp hnd
    simp only [execLoop]
    rw [if_neg hk]
    refine Eq.trans (ih ((stringifyLabels (toTimeSeries rr r (timeUnix r.timestamp 0))).2 :: dups)
      (tss ++ [(stringifyLabels (toTimeSeries rr r (timeUnix r.timestamp 0))).1]) htail ?_) ?_
    · intro k hkm hmem
      rcases List.mem_cons.mp hmem with hh | hh
      · rw [hh] at hkm
        exact hhead hkm
      · exact hdisj k (List.mem_cons_of_mem _ hkm) hh
    · simp [tsOf]

theorem execLoop_err (rr : RecordingRule) :
    ∀ (ms : List Metric) (dups : List String) (tss : List TimeSeries),
      ¬ ((ms.map (keyOf rr)).Nodup ∧ ∀ k ∈ ms.map (keyOf rr), k ∉ dups) →
      ∃ r k, execLoop rr ms dups tss = .error (r, k) := by
  intro ms
  induction ms with
  | nil => intro dups tss h; simp at h
  | cons r ms ih =>
    intro dups tss h
    by_cases hk : (stringifyLabels (toTimeSeries rr r (timeUnix r.timestamp 0))).2 ∈ dups
    · refine ⟨r, keyOf rr r, ?_⟩
      simp only [execLoop]
      rw [if_pos hk]
      rfl
    · have hside : ¬ ((ms.map (keyOf rr)).Nodup ∧ ∀ k ∈ ms.map (keyOf rr),
          k ∉ (stringifyLabels (toTimeSeries rr r (timeUnix r.timestamp 0))).2 :: dups) := by
        rintro ⟨hnd, hdisj⟩
        apply h
        constructor
        · rw [List.map_cons]
          exact List.nodup_cons.mpr
            ⟨fun hmem => (hdisj _ hmem) (List.mem_cons_self _ _), hnd⟩
        · intro k hkm
          rw [List.map_cons] at hkm
          rcases List.mem_cons.mp hkm with hh | hh
          · intro hd
            rw [hh] at hd
            exact hk hd
          · exact fun hd => (hdisj k hh) (List.mem_cons_of_mem _ hd)
      obtain ⟨r', k', he⟩ := ih
        ((stringifyLabels (toTimeSeries rr r (timeUnix r.timestamp 0))).2 :: dups)
        (tss ++ [(stringifyLabels (toTimeSeries rr r (timeUnix r.timestamp 0))).1]) hside
      refine ⟨r', k', ?_⟩
      simp only [execLoop]
      rw [if_neg hk]
      exact he

theorem exec_ok_eq (rr : RecordingRule) (now : GoTime) (ms : List Metric)
    (h : (ms.map (keyOf rr)).Nodup) :
    Exec rr true now (.ok ms) =
      ({ rr with lastExecTime := now, lastExecError := none }, ms.map (tsOf rr), none) := by
  have hloop : execLoop { rr with lastExecTime := now, lastExecError := none } ms [] [] =
      .ok (([] : List TimeSeries) ++ ms.map (tsOf rr)) :=
    execLoop_ok _ ms [] [] h (fun k _ hc => List.not_mem_nil k hc)
  show execOnOk { rr with lastExecTime := now, lastExecError := none } ms = _
  unfold execOnOk
  rw [hloop]
  rfl

theorem exec_dup_eq (rr : RecordingRule) (now : GoTime) (ms : List Metric)
    (hdup : ¬ (ms.map (keyOf rr)).Nodup) :
    ∃ r k, Exec rr true now (.ok ms) =
      ({ rr with lastExecTime := now, lastExecError := some RuleError.errDuplicate },
        [], some (ExecError.duplicateFound r k)) := by
  obtain ⟨r, k, he⟩ :=
    execLoop_err { rr with lastExecTime := now, lastExecError := none } ms [] []
      (fun hc => hdup hc.1)
  refine ⟨r, k, ?_⟩
  show execOnOk { rr with lastExecTime := now, lastExecError := none } ms = _
  unfold execOnOk
  rw [he]

/-! Claim theorems. -/

/-- A concrete rule for the witnesses: records `up_count` with the static
label `env=prod` (the concrete scenario of the spec). -/
def rrW : RecordingRule :=
  { typ := "prometheus", ruleID := 7, name := "up_count", expr := "count(up)",
    labels := [("env", "prod")], groupID := 3,
    lastExecTime := ⟨0, 0⟩, lastExecError := none }

/-- A concrete query result carrying the label `job=a`. -/
def mA : Metric := { labels := [Label.mk "job" "a"], timestamp := 100, value := 1 }

/-- A concrete query result carrying the label `job=b`. -/
def mB : Metric := { labels := [Label.mk "job" "b"], timestamp := 100, value := 2 }

/-- A concrete query result whose `env=dev` label the static overlay
overrides, making it collide with `mA` after the overlay. -/
def mADup : Metric :=
  { labels := [Label.mk "job" "a", Label.mk "env" "dev"], timestamp := 100, value := 3 }

/-- C1: when wantSeries is true, the query succeeds, and the returned metrics
produce two output series with equal canonical keys, Exec returns an empty
series sequence together with a duplicate-series error, and lastExecError is
the distinguished duplicate-series error afterward, overwriting the nil error
recorded for the successful query; no partial batch is returned. -/
theorem exec_duplicate_fail_fast (rr : RecordingRule) (now : GoTime) (ms : List Metric)
    (hdup : ¬ (ms.map (keyOf rr)).Nodup) :
    (Exec rr true now (.ok ms)).2.1 = [] ∧
    (∃ r k, (Exec rr true now (.ok ms)).2.2 = some (ExecError.duplicateFound r k)) ∧
    (Exec rr true now (.ok ms)).1.lastExecError = some RuleError.errDuplicate ∧
    (Exec rr true now (.ok ms)).1.lastExecTime = now := by
  obtain ⟨r, k, he⟩ := exec_dup_eq rr now ms hdup
  rw [he]
  exact ⟨rfl, ⟨r, k, rfl⟩, rfl, rfl⟩

theorem exec_duplicate_fail_fast_witness :
    (Exec rrW true ⟨200, 0⟩ (.ok [mA, mADup])).2.1 = [] ∧
    (Exec rrW true ⟨200, 0⟩ (.ok [mA, mADup])).1.lastExecError =
      some RuleError.errDuplicate ∧
    (Exec rrW true ⟨200, 0⟩ (.ok [mA, mADup])).1.lastExecTime = ⟨200, 0⟩ :=
  have h := exec_duplicate_fail_fast rrW ⟨200, 0⟩ [mA, mADup] (by decide)
  ⟨h.1, h.2.2.1, h.2.2.2⟩

/-- C2 counterexample: the canonical key is not injective on label sets — a
value containing the separator characters collides with a two-label set that
differs from it as a set of (name, value) pairs. -/
theorem canonicalKey_not_injective :
    canonicalKey [Label.mk "a" "b,c=d"] = canonicalKey [Label.mk "a" "b", Label.mk "c" "d"] ∧
    Label.mk "c" "d" ∈ [Label.mk "a" "b", Label.mk "c" "d"] ∧
    Label.mk "c" "d" ∉ [Label.mk "a" "b,c=d"] := by decide

/-- C2 (amended): on label lists whose names contain no pair separator and
whose values contain no list separator, the canonical key is injective: equal
keys force the lists to be permutations of each other, hence equal as sets of
(name, value) pairs. -/
theorem canonicalKey_inj_sepFree (l1 l2 : List Label)
    (h1 : ∀ lab ∈ l1, sepFree lab) (h2 : ∀ lab ∈ l2, sepFree lab)
    (hk : canonicalKey l1 = canonicalKey l2) :
    List.Perm l1 l2 ∧ ∀ lab, lab ∈ l1 ↔ lab ∈ l2 :=
  have hp := canonicalKey_inj l1 l2 h1 h2 hk
  ⟨hp, fun _ => hp.mem_iff⟩

theorem canonicalKey_inj_sepFree_witness :
    List.Perm [Label.mk "a" "1", Label.mk "b" "2"] [Label.mk "b" "2", Label.mk "a" "1"] :=
  (canonicalKey_inj_sepFree [Label.mk "a" "1", Label.mk "b" "2"]
    [Label.mk "b" "2", Label.mk "a" "1"] (by decide) (by decide) (by decide)).1

/-- C3 counterexample: with a duplicated label name the key is not
order-independent — two permutations of the same pairs yield different keys
(the sort is stable and only compares names). -/
theorem canonicalKey_not_order_independent :
    List.Perm [Label.mk "a" "1", Label.mk "a" "2"] [Label.mk "a" "2", Label.mk "a" "1"] ∧
    canonicalKey [Label.mk "a" "1", Label.mk "a" "2"] ≠
      canonicalKey [Label.mk "a" "2", Label.mk "a" "1"] :=
  ⟨List.Perm.swap (Label.mk "a" "2") (Label.mk "a" "1") [], by decide⟩

/-- C3 (amended): on label lists with pairwise-distinct names the canonical
key is order-independent — any two permutations of the same pairs get the
same key — and the key is the name-ascending sorted concatenation of
name=value pairs separated by single commas with no trailing separator. -/
theorem canonicalKey_order_independent (l1 l2 : List Label) (hp : List.Perm l1 l2)
    (hn : (l1.map Label.name).Nodup) :
    canonicalKey l1 = canonicalKey l2 ∧
    List.Sorted labelLE (sortLabels l1) ∧
    List.Perm (sortLabels l1) l1 ∧
    canonicalKey l1 = labelsToString (sortLabels l1) :=
  ⟨canonicalKey_perm_invariant l1 l2 hp hn, sortLabels_sorted l1, sortLabels_perm l1, rfl⟩

theorem canonicalKey_order_independent_witness :
    canonicalKey [Label.mk "a" "1", Label.mk "b" "2"] =
      canonicalKey [Label.mk "b" "2", Label.mk "a" "1"] ∧
    List.Sorted labelLE (sortLabels [Label.mk "a" "1", Label.mk "b" "2"]) ∧
    List.Perm (sortLabels [Label.mk "a" "1", Label.mk "b" "2"])
      [Label.mk "a" "1", Label.mk "b" "2"] ∧
    canonicalKey [Label.mk "a" "1", Label.mk "b" "2"] =
      labelsToString (sortLabels [Label.mk "a" "1", Label.mk "b" "2"]) :=
  canonicalKey_order_independent [Label.mk "a" "1", Label.mk "b" "2"]
    [Label.mk "b" "2", Label.mk "a" "1"]
    (List.Perm.swap (Label.mk "b" "2") (Label.mk "a" "1") []) (by decide)

/-- C4: the output TimeSeries label set is the Metric's labels with `__name__`
force-set to the rule's Name and every static Config Label overlaid on top,
statics overwriting any collision (including `__name__`); in particular a
static label sharing a name with a queried label wins. -/
theorem toTimeSeries_overlay (rr : RecordingRule) (m : Metric) (t : GoTime)
    (hS : (rr.labels.map Prod.fst).Nodup) (hM : (m.labels.map Label.name).Nodup) :
    (∀ n v, Label.mk n v ∈ (toTimeSeries rr m t).labels ↔ specOverlayGet rr m n = some v) ∧
    (∀ n v, (n, v) ∈ rr.labels → Label.mk n v ∈ (toTimeSeries rr m t).labels) := by
  refine ⟨fun n v => mem_toTimeSeries_iff rr m t hS hM n v, fun n v hmem => ?_⟩
  rw [mem_toTimeSeries_iff rr m t hS hM n v]
  unfold specOverlayGet
  rw [(mapGet_eq_some_iff_mem rr.labels hS n v).mpr hmem]

theorem toTimeSeries_overlay_witness :
    Label.mk "env" "prod" ∈ (toTimeSeries rrW mADup ⟨100, 0⟩).labels ∧
    (Label.mk "env" "dev" ∈ (toTimeSeries rrW mADup ⟨100, 0⟩).labels ↔
      specOverlayGet rrW mADup "env" = some "dev") ∧
    (Label.mk "__name__" "up_count" ∈ (toTimeSeries rrW mADup ⟨100, 0⟩).labels ↔
      specOverlayGet rrW mADup "__name__" = some "up_count") :=
  ⟨(toTimeSeries_overlay rrW mADup ⟨100, 0⟩ (by decide) (by decide)).2 "env" "prod"
      (by decide),
   (toTimeSeries_overlay rrW mADup ⟨100, 0⟩ (by decide) (by decide)).1 "env" "dev",
   (toTimeSeries_overlay rrW mADup ⟨100, 0⟩ (by decide) (by decide)).1 "__name__" "up_count"⟩

/-- C5: with wantSeries false, Exec returns an empty sequence and no error,
leaves the rule record (in particular lastExecTime and lastExecError) exactly
as it was, and its outcome does not depend on the query at all. -/
theorem exec_no_series (rr : RecordingRule) (now : GoTime)
    (qres : Except String (List Metric)) :
    Exec rr false now qres = (rr, [], none) ∧
    ∀ qres2 : Except String (List Metric), Exec rr false now qres = Exec rr false now qres2 :=
  ⟨rfl, fun _ => rfl⟩

/-- C6: UpdateWith with a non-RecordingRule argument reports the contract
violation and leaves the receiver unchanged; with a RecordingRule it succeeds
and copies only Expression and static Labels, so a RuleAPI snapshot keeps ID,
GroupID, Name, Type, LastExec and LastError while showing the new
Expression and Labels. -/
theorem updateWith_frame :
    (∀ (rr : RecordingRule) (tag : String),
      UpdateWith rr (Rule.otherVariant tag) =
        (rr, some "BUG: attempt to update recroding rule with wrong type")) ∧
    (∀ rr nr : RecordingRule,
      (UpdateWith rr (Rule.recording nr)).2 = none ∧
      (UpdateWith rr (Rule.recording nr)).1 =
        { rr with expr := nr.expr, labels := nr.labels } ∧
      RuleAPI (UpdateWith rr (Rule.recording nr)).1 =
        { RuleAPI rr with expression := nr.expr, labels := nr.labels }) :=
  ⟨fun _ _ => rfl, fun _ _ => ⟨rfl, rfl, rfl⟩⟩

/-- C7: a cycle with a failed query records a non-nil lastExecError and
returns nil series with a wrapped error naming the failing expression; a
following successful, collision-free cycle resets lastExecError to nil — the
error never latches. -/
theorem exec_error_then_success (rr : RecordingRule) (t1 t2 : GoTime) (e : String)
    (ms : List Metric) (h : (ms.map (keyOf rr)).Nodup) :
    (Exec rr true t1 (.error e)).1.lastExecError = some (RuleError.queryError e) ∧
    (Exec rr true t1 (.error e)).2.1 = [] ∧
    (Exec rr true t1 (.error e)).2.2 = some (ExecError.queryFailed rr.expr e) ∧
    (Exec (Exec rr true t1 (.error e)).1 true t2 (.ok ms)).1.lastExecError = none := by
  refine ⟨rfl, rfl, rfl, ?_⟩
  have h2 : (ms.map (keyOf (Exec rr true t1 (.error e)).1)).Nodup := h
  rw [exec_ok_eq _ t2 ms h2]

theorem exec_error_then_success_witness :
    (Exec rrW true ⟨10, 0⟩ (.error "connection refused")).1.lastExecError =
      some (RuleError.queryError "connection refused") ∧
    (Exec rrW true ⟨10, 0⟩ (.error "connection refused")).2.1 = [] ∧
    (Exec rrW true ⟨10, 0⟩ (.error "connection refused")).2.2 =
      some (ExecError.queryFailed rrW.expr "connection refused") ∧
    (Exec (Exec rrW true ⟨10, 0⟩ (.error "connection refused")).1 true ⟨20, 0⟩
      (.ok [mA, mB])).1.lastExecError = none :=
  exec_error_then_success rrW ⟨10, 0⟩ ⟨20, 0⟩ "connection refused" [mA, mB] (by decide)

/-- C9 counterexample: computing the key of a TimeSeries does modify the
TimeSeries — the in-place sort reorders its label sequence when it is not
already name-sorted. -/
theorem stringifyLabels_mutates_input :
    (stringifyLabels ⟨[Label.mk "b" "1", Label.mk "a" "2"], 1, ⟨0, 0⟩⟩).1 ≠
      ⟨[Label.mk "b" "1", Label.mk "a" "2"], 1, ⟨0, 0⟩⟩ := by decide

/-- C9 (amended): the canonical key builder is a pure function of its input
that touches no shared state, but it sorts the label sequence of its argument
in place: the resulting TimeSeries keeps the same value, timestamp and label
multiset, with the labels now in the sorted order, and the key it returns
depends only on the label list. -/
theorem stringifyLabels_effect (ts : TimeSeries) :
    (stringifyLabels ts).1.value = ts.value ∧
    (stringifyLabels ts).1.timestamp = ts.timestamp ∧
    List.Perm (stringifyLabels ts).1.labels ts.labels ∧
    (stringifyLabels ts).1.labels = sortLabels ts.labels ∧
    (stringifyLabels ts).2 = canonicalKey ts.labels :=
  ⟨rfl, rfl, sortLabels_perm ts.labels, rfl, rfl⟩

/-- C10: a successful, collision-free query of n metrics makes Exec return
exactly those n series in query order, each carrying its metric's value and a
timestamp of whole seconds (nanosecond part zero) equal to the metric's
integer sample timestamp, with a nil error and lastExecError reset to nil
(an empty result gives an empty sequence). -/
theorem exec_success_series (rr : RecordingRule) (now : GoTime) (ms : List Metric)
    (h : (ms.map (keyOf rr)).Nodup) :
    Exec rr true now (.ok ms) =
      ({ rr with lastExecTime := now, lastExecError := none }, ms.map (tsOf rr), none) ∧
    ∀ r : Metric, (tsOf rr r).value = r.value ∧
      (tsOf rr r).timestamp = timeUnix r.timestamp 0 :=
  ⟨exec_ok_eq rr now ms h, fun _ => ⟨rfl, rfl⟩⟩

theorem exec_success_series_witness :
    Exec rrW true ⟨200, 0⟩ (.ok [mA, mB]) =
      ({ rrW with lastExecTime := ⟨200, 0⟩, lastExecError := none },
        [mA, mB].map (tsOf rrW), none) ∧
    (tsOf rrW mA).value = mA.value ∧
    (tsOf rrW mA).timestamp = timeUnix mA.timestamp 0 :=
  have h := exec_success_series rrW ⟨200, 0⟩ [mA, mB] (by decide)
  ⟨h.1, (h.2 mA).1, (h.2 mA).2⟩
